import Mathlib

/-!
# Verification of the `cache` package (coordinator-based variant)

Shallow embedding of the Go LRU/TTU cache whose ordering list is owned by a
single worker goroutine (`Cache.listWorker` in `cache.go`) fed by two channels
(`frontCh` for promotions, `deleteCh` for evictions), with per-shard indexes
`map[interface{}]*Element` (`shard.go`, the `Element` variant).

Modelling choices, stated once:

* **Drained semantics.** The claims under verification all speak about the
  state "after all in-flight promote/evict messages have been applied". We
  therefore apply each channel send inline, in send order, exactly as the
  worker's two `select` branches would process them (`applyDelete`,
  `applyFront` below). This is the sequential (fully drained) semantics of
  the concurrent program.
* **Heap of elements.** Go `*Element` pointers are modelled as numeric
  identities allocated by a counter; the heap `elems` maps identity to the
  element's current fields. The `el *list.Element` back-reference is modelled
  by a Boolean `el` ("the back-reference is set") plus membership of the
  identity in the ordering list `l`; the worker's `l.Remove(el.el)` removes
  the front-most occurrence of the identity, which is the node the (last
  written) back-reference points to.
* **Union of shard indexes.** `Cache.shard` routes each key to a fixed shard
  deterministically, so the disjoint union of the 100 shard maps is a single
  association list `idx` from key to element identity; an operation on a key
  only ever touches that key's entry of the union, exactly as it only touches
  the key's own shard.
* **Time.** Timestamps and durations are naturals; each public operation
  takes the current time `now` as an argument (`time.Now()` / `time.Since`).
* **Key encoding.** `Cache.shard` turns the key into bytes (string bytes,
  little-endian fixed-width numerics, or the gob fallback which fails on
  unsupported types and makes the call abort). `keyBytes` returns `none`
  exactly in the fallback-failure case; operations then return `.error ()`
  paired with the untouched state, since the abort happens before any
  mutation.
* **Purge fuel.** The `for` loop of `Cache.Purge` is embedded with fuel
  `l.length`; on every state where each iteration unlinks the back node
  (in particular on all states satisfying `PurgeInv` below) this fuel is
  never exhausted, so the fueled function computes exactly the loop's result.
-/

inductive GoKey where
  | str : String → GoKey
  | int : Int → GoKey
  | unencodable : Nat → GoKey
deriving DecidableEq, Repr

inductive GoVal where
  | str : String → GoVal
  | int : Int → GoVal
deriving DecidableEq, Repr

deriving instance DecidableEq for Except

/-- Association-list lookup, first binding wins (a Go map has unique keys;
`upd`/`del` below keep keys unique). -/
def look {α β : Type} [DecidableEq α] : List (α × β) → α → Option β
  | [], _ => none
  | p :: ps, k => if p.1 = k then some p.2 else look ps k

/-- Delete a key from an association list (Go `delete(m, k)`). -/
def del {α β : Type} [DecidableEq α] (m : List (α × β)) (k : α) : List (α × β) :=
  m.filter fun p => decide (p.1 ≠ k)

/-- Set a key in an association list (Go `m[k] = v`). -/
def upd {α β : Type} [DecidableEq α] (m : List (α × β)) (k : α) (v : β) : List (α × β) :=
  (k, v) :: del m k

/-- `Element` of `element.go`: key, value, last-use time, and whether the
back-reference into the ordering list (`el *list.Element`) is set. -/
structure Element where
  key : GoKey
  val : GoVal
  lu : Nat
  el : Bool
deriving DecidableEq, Repr

/-- `Cache` of `cache.go`, drained: configuration, the element heap, the union
of the shard indexes, the worker-owned ordering list (front first) and the
worker-owned counter `len`. -/
structure Cache where
  cap : Nat
  ttu : Nat
  coolOff : Nat
  elems : List (Nat × Element)
  nextId : Nat
  idx : List (GoKey × Nat)
  l : List Nat
  len : Int
deriving DecidableEq, Repr

/-- `New` followed by `lazyInit`: empty index, empty list, zero counter. -/
def newCache (cap ttu coolOff : Nat) : Cache :=
  { cap := cap, ttu := ttu, coolOff := coolOff,
    elems := [], nextId := 0, idx := [], l := [], len := 0 }

/-- Little-endian bytes of an int64 key (`binary.Write` fast path). -/
def intBytes (i : Int) : List Nat :=
  (List.range 8).map fun j => (i.emod (2 ^ 64)).toNat / 2 ^ (8 * j) % 256

/-- Byte representation of a key, mirroring the type switch of `Cache.shard`:
string keys hash their bytes (modelled as character codes), int64 keys hash
eight little-endian bytes, and a key of a type the gob fallback cannot encode
yields `none` (the source panics there, aborting the call). -/
def keyBytes : GoKey → Option (List Nat)
  | .str s => some (s.data.map Char.toNat)
  | .int i => some (intBytes i)
  | .unencodable _ => none

/-- One step of 32-bit FNV-1a: xor in the byte, multiply by the FNV prime. -/
def fnv32Step (h b : Nat) : Nat := ((h ^^^ b) * 16777619) % 4294967296

/-- 32-bit FNV-1a over a byte list, offset basis 2166136261 (`hash/fnv`). -/
def fnv32a (bs : List Nat) : Nat := bs.foldl fnv32Step 2166136261

/-- `numShards` is fixed at 100 in `lazyInit`. -/
def numShards : Nat := 100

/-- The shard index a key routes to: `h.Sum32() & uint32(c.numShards-1)`,
or `none` when the key is unencodable (the source panics before indexing). -/
def shardFor (k : GoKey) : Option Nat :=
  (keyBytes k).map fun bs => fnv32a bs &&& (numShards - 1)

/-- The worker's `deleteCh` branch: if the element's back-reference is set,
remove that node from the ordering list and decrement the counter. -/
def Cache.applyDelete (c : Cache) (id : Nat) : Cache :=
  match look c.elems id with
  | some e => if e.el then { c with l := c.l.erase id, len := c.len - 1 } else c
  | none => c

/-- The worker's `frontCh` branch: `el.el = c.l.PushFront(el); c.len++`.
A new front node is pushed unconditionally and the counter incremented;
the element's back-reference is (re)set. -/
def Cache.applyFront (c : Cache) (id : Nat) : Cache :=
  match look c.elems id with
  | some e =>
      { c with elems := upd c.elems id { e with el := true },
               l := id :: c.l, len := c.len + 1 }
  | none => { c with l := id :: c.l, len := c.len + 1 }

/-- `shard.set`: always allocate a fresh `Element` (back-reference unset,
last-use = now), install it in the index, and return its identity together
with the identity previously under the key, if any. -/
def Cache.shardSet (c : Cache) (k : GoKey) (v : GoVal) (now : Nat) :
    Nat × Option Nat × Cache :=
  let id := c.nextId
  let found := look c.idx k
  (id, found,
    { c with elems := upd c.elems id { key := k, val := v, lu := now, el := false },
             nextId := id + 1,
             idx := upd c.idx k id })

/-- `shard.get`: pure index lookup. -/
def Cache.shardGet (c : Cache) (k : GoKey) : Option Nat := look c.idx k

/-- `shard.remove`: read the index entry, delete the key, return the entry. -/
def Cache.shardRemove (c : Cache) (k : GoKey) : Option Nat × Cache :=
  (look c.idx k, { c with idx := del c.idx k })

/-- `Cache.expired`: a zero TTU never expires; otherwise expired iff
`lu + ttu < now` (`ce.lu.Add(c.ttu).Before(time.Now())`). -/
def Cache.expired (c : Cache) (e : Element) (now : Nat) : Bool :=
  if c.ttu = 0 then false else decide (e.lu + c.ttu < now)

/-- `Cache.Remove`: route (aborting on an unencodable key), remove from the
shard, and if an element was present send it to `deleteCh` (applied inline).
The call returns the removed `*Element` itself, i.e. the element identity,
not the stored value. -/
def Cache.Remove (c : Cache) (k : GoKey) : Except Unit (Option Nat) × Cache :=
  match keyBytes k with
  | none => (.error (), c)
  | some _ =>
    let r := c.shardRemove k
    match r.1 with
    | some id => (.ok (some id), (r.2).applyDelete id)
    | none => (.ok none, r.2)

/-- `Cache.removeOldest`: take the back of the ordering list and `Remove` its
key. -/
def Cache.removeOldest (c : Cache) : Except Unit Unit × Cache :=
  match c.l.getLast? with
  | none => (.ok (), c)
  | some id =>
    match look c.elems id with
    | none => (.ok (), c)
    | some e =>
      let r := c.Remove e.key
      (r.1.map fun _ => (), r.2)

/-- `Cache.Add`: route (aborting on an unencodable key), `shard.set`, send the
displaced old element to `deleteCh` and the fresh one to `frontCh` (applied
inline, in send order), then evict the oldest if over capacity. -/
def Cache.Add (c : Cache) (k : GoKey) (v : GoVal) (now : Nat) :
    Except Unit Unit × Cache :=
  match keyBytes k with
  | none => (.error (), c)
  | some _ =>
    let r := c.shardSet k v now
    let c2 := match r.2.1 with
      | some oldId => (r.2.2).applyDelete oldId
      | none => r.2.2
    let c3 := c2.applyFront r.1
    if c3.cap > 0 ∧ c3.l.length > c3.cap then c3.removeOldest else (.ok (), c3)

/-- `Cache.Get`: route (aborting on an unencodable key), look the key up; on a
non-expired hit, send a promotion unless within the cool-off window, and
return the value; otherwise report a miss. The last-use time is never
refreshed by the read path of this variant. -/
def Cache.Get (c : Cache) (k : GoKey) (now : Nat) :
    Except Unit (Option GoVal) × Cache :=
  match keyBytes k with
  | none => (.error (), c)
  | some _ =>
    match c.shardGet k with
    | none => (.ok none, c)
    | some id =>
      match look c.elems id with
      | none => (.ok none, c)
      | some e =>
        if c.expired e now then (.ok none, c)
        else if c.coolOff = 0 ∨ now - e.lu > c.coolOff then
          (.ok (some e.val), c.applyFront id)
        else (.ok (some e.val), c)

/-- `Cache.Len`: the worker-maintained counter. -/
def Cache.Len (c : Cache) : Int := c.len

/-- `Cache.Cap`. -/
def Cache.Cap (c : Cache) : Nat := c.cap

/-- `Cache.TTU`. -/
def Cache.TTU (c : Cache) : Nat := c.ttu

/-- The `for` loop of `Cache.Purge`, with explicit fuel: look at the back of
the ordering list; stop if the list is empty or the back element is not
expired; otherwise remove the back element's key from its shard, send the
removed element (if any) to `deleteCh` (applied inline), count it, and loop. -/
def Cache.purgeLoop (now : Nat) : Nat → Cache → Nat × Cache
  | 0, c => (0, c)
  | fuel + 1, c =>
    match c.l.getLast? with
    | none => (0, c)
    | some id =>
      match look c.elems id with
      | none => (0, c)
      | some e =>
        if c.expired e now then
          let r := c.shardRemove e.key
          let c2 := match r.1 with
            | some id2 => (r.2).applyDelete id2
            | none => r.2
          let r2 := Cache.purgeLoop now fuel c2
          (r2.1 + 1, r2.2)
        else (0, c)

/-- `Cache.Purge`: nothing to do on an empty list or a zero TTU; otherwise run
the sweep loop. -/
def Cache.Purge (c : Cache) (now : Nat) : Nat × Cache :=
  if c.l.length = 0 then (0, c)
  else if c.ttu ≠ 0 then Cache.purgeLoop now c.l.length c
  else (0, c)

/-- The entry a key currently resolves to: index lookup then heap lookup. -/
def Cache.lookupEntry (c : Cache) (k : GoKey) : Option Element :=
  (look c.idx k).bind (look c.elems)

/-- Keys of an association list. -/
def keysOf (m : List (GoKey × Nat)) : List GoKey := m.map Prod.fst

/-- Values (element identities) of an association list. -/
def idsOf (m : List (GoKey × Nat)) : List Nat := m.map Prod.snd

/-- Boolean check that an index binding is backed by a heap element with the
same key whose back-reference is set. -/
def elemOKB (c : Cache) (p : GoKey × Nat) : Bool :=
  match look c.elems p.2 with
  | some e => decide (e.key = p.1) && e.el
  | none => false

/-- Boolean check that the element under an identity is expired. -/
def expiredIdB (c : Cache) (id : Nat) (now : Nat) : Bool :=
  match look c.elems id with
  | some e => c.expired e now
  | none => false

/-- Coherence of the drained state: the ordering list has no duplicate nodes,
the index has no duplicate keys, the list's identities are exactly the
index's identities, and every index binding is backed by a matching, linked
heap element. Every state reachable by drained `Add`-only workloads (and in
particular the purge test scenarios) satisfies this. -/
def PurgeInv (c : Cache) : Prop :=
  c.l.Nodup ∧
  (keysOf c.idx).Nodup ∧
  (∀ id ∈ c.l, id ∈ idsOf c.idx) ∧
  (∀ id ∈ idsOf c.idx, id ∈ c.l) ∧
  (∀ p ∈ c.idx, elemOKB c p = true)

instance (c : Cache) : Decidable (PurgeInv c) := by
  unfold PurgeInv; infer_instance

/-- Scenario state for the capacity example: `New(capacity=2)` then
`Add("a",1); Add("b",2); Add("c",3)`, drained. -/
def lruA : Cache := ((newCache 2 0 0).Add (GoKey.str "a") (GoVal.int 1) 0).2

def lruB : Cache := (lruA.Add (GoKey.str "b") (GoVal.int 2) 1).2

def lruC : Cache := (lruB.Add (GoKey.str "c") (GoVal.int 3) 2).2

/-- Scenario state: unbounded cache after `Add("a",1)`, drained. -/
def dupBase : Cache := ((newCache 0 0 0).Add (GoKey.str "a") (GoVal.int 1) 0).2

/-- Scenario state: `dupBase` after a `Get("a")` hit, drained. -/
def dupAfterGet : Cache := (dupBase.Get (GoKey.str "a") 0).2

/-- Scenario state: `dupAfterGet` after the overwrite `Add("a",2)`, drained. -/
def dupAfterOverwrite : Cache :=
  (dupAfterGet.Add (GoKey.str "a") (GoVal.int 2) 1).2

/-- Scenario state: cool-off 10, `Add("a",1)` at time 0, drained. -/
def coolBase : Cache := ((newCache 0 0 10).Add (GoKey.str "a") (GoVal.int 1) 0).2

/-- Scenario state: TTU 5, `Add("k",7)` at time 0, drained. -/
def ttuBase : Cache := ((newCache 0 5 0).Add (GoKey.str "k") (GoVal.int 7) 0).2

/-- Small helper: `applyFront` never touches the shard index. -/
theorem applyFront_idx (c : Cache) (id : Nat) : (c.applyFront id).idx = c.idx := by
  unfold Cache.applyFront
  cases look c.elems id <;> rfl

/-- Claim C1: with capacity 2 and no TTU, the drained sequence
`Add("a",1); Add("b",2); Add("c",3)` leaves `Len() == 2`, `Get("a")` a miss,
and `Get("b")`, `Get("c")` hits returning 2 and 3: the least-recently-added
key is the one evicted when capacity is exceeded. -/
theorem c1_lru_example :
    lruC.Len = 2
    ∧ (lruC.Get (GoKey.str "a") 3).1 = .ok none
    ∧ (lruC.Get (GoKey.str "b") 3).1 = .ok (some (GoVal.int 2))
    ∧ (lruC.Get (GoKey.str "c") 3).1 = .ok (some (GoVal.int 3)) := by
  decide

/-- Claim C2, evaluated at its failing input: the worker's promote branch
always pushes a fresh front node, so after the drained run
`Add("a",1); Get("a")` the ordering list holds two nodes for key `"a"`'s
single index entry, and after the further overwrite `Add("a",2)` a stale node
(identity 0) stays in the ordering list while the index only reaches
identity 1 — refuting both "at most one node per key" and "in the ordering
structure iff reachable from some shard's index". -/
theorem c2_ordering_invariant_violated :
    dupAfterGet.l = [0, 0]
    ∧ look dupAfterGet.idx (GoKey.str "a") = some 0
    ∧ dupAfterOverwrite.l = [1, 0]
    ∧ dupAfterOverwrite.idx = [(GoKey.str "a", 1)] := by
  decide

/-- Claim C3, evaluated at its failing input: every applied promote does
`PushFront` and `len++` without checking whether the entry is already linked,
so the drained run `Add("a",1); Get("a")` leaves `Len() == 2` while the cache
holds exactly one live entry. -/
theorem c3_len_drift :
    dupBase.Len = 1
    ∧ dupAfterGet.Len = 2
    ∧ dupAfterGet.idx = [(GoKey.str "a", 0)] := by
  decide

/-- Claim C5, evaluated at its failing input: after `Add("a",1)`, `Remove("a")`
returns the removed `*Element` itself (identity 0, whose heap record holds the
value 1), not the stored value, although the key is indeed gone from the shard
index afterwards; `Remove` of the absent key `"b"` returns a nil `*Element`
(which Go boxes into a non-nil `interface{}`). -/
theorem c5_remove_returns_element :
    (ttuBase.Remove (GoKey.str "k")).1 = .ok (some 0)
    ∧ look ttuBase.elems 0 = some ⟨GoKey.str "k", GoVal.int 7, 0, true⟩
    ∧ look ((ttuBase.Remove (GoKey.str "k")).2).idx (GoKey.str "k") = none
    ∧ (ttuBase.Remove (GoKey.str "b")).1 = .ok none := by
  decide

/-- Claim C6, counterexample: with cool-off 10 and an entry last used at 0,
a hit at time 11 (elapsed greater than the cool-off) does send a promotion
(the list grows) but the entry's last-use time stays 0, not 11 — refuting
"lastUse is refreshed to the current time"; and a hit at time 10 (elapsed
equal to the cool-off, so not "less than") sends no promotion at all —
refuting "otherwise a promotion message is sent". -/
theorem c6_counterexample :
    (coolBase.Get (GoKey.str "a") 11).1 = .ok (some (GoVal.int 1))
    ∧ ((coolBase.Get (GoKey.str "a") 11).2).l = [0, 0]
    ∧ ¬ ((look ((coolBase.Get (GoKey.str "a") 11).2).elems 0).map Element.lu
          = some 11)
    ∧ (coolBase.Get (GoKey.str "a") 10).1 = .ok (some (GoVal.int 1))
    ∧ (coolBase.Get (GoKey.str "a") 10).2 = coolBase := by
  decide

/-- Lookup after a deletion: the deleted key reads `none`, others unchanged. -/
theorem look_del {α β : Type} [DecidableEq α] (m : List (α × β)) (k k' : α) :
    look (del m k) k' = if k' = k then none else look m k' := by
  induction m with
  | nil => simp [del, look]
  | cons p ps ih =>
    by_cases hpk : p.1 = k
    · have hd : del (p :: ps) k = del ps k := by
        simp [del, List.filter_cons, hpk]
      rw [hd, ih]
      by_cases hk' : k' = k
      · simp [hk']
      · have hp' : ¬ p.1 = k' := by
          rw [hpk]; exact fun h => hk' h.symm
        simp [hk', look, hp']
    · have hd : del (p :: ps) k = p :: del ps k := by
        simp [del, List.filter_cons, hpk]
      rw [hd]
      by_cases hpk' : p.1 = k'
      · have hk'k : ¬ k' = k := fun h => hpk (hpk'.trans h)
        simp [look, hpk', hk'k]
      · simp [look, hpk', ih]

/-- Lookup after an update: the updated key reads the new value, others
unchanged. -/
theorem look_upd {α β : Type} [DecidableEq α] (m : List (α × β)) (k : α) (v : β)
    (k' : α) : look (upd m k v) k' = if k' = k then some v else look m k' := by
  unfold upd
  by_cases h : k' = k
  · simp [look, h]
  · have h2 : ¬ k = k' := fun e => h e.symm
    simp [look, h2, h, look_del]

/-- A successful lookup names a pair of the list. -/
theorem look_mem {α β : Type} [DecidableEq α] {m : List (α × β)} {k : α} {v : β}
    (h : look m k = some v) : (k, v) ∈ m := by
  induction m with
  | nil => simp [look] at h
  | cons p ps ih =>
    obtain ⟨a, b⟩ := p
    by_cases hp : a = k
    · simp only [look, hp, if_pos] at h
      subst hp
      cases h
      exact List.mem_cons_self _ _
    · simp only [look, hp, if_neg, not_false_iff] at h
      exact List.mem_cons_of_mem _ (ih h)

/-- With unique keys, membership determines the lookup. -/
theorem look_eq_some_of_mem_nodup {α β : Type} [DecidableEq α]
    {m : List (α × β)} (hnd : (m.map Prod.fst).Nodup) {k : α} {v : β}
    (h : (k, v) ∈ m) : look m k = some v := by
  induction m with
  | nil => simp at h
  | cons p ps ih =>
    obtain ⟨a, b⟩ := p
    rcases List.mem_cons.mp h with hh | ht
    · cases hh
      simp [look]
    · have ha : ¬ a = k := by
        intro hak
        apply (List.nodup_cons.mp hnd).1
        rw [hak]
        exact List.mem_map.mpr ⟨(k, v), ht, rfl⟩
      simp only [look, ha, if_neg, not_false_iff]
      exact ih (List.nodup_cons.mp hnd).2 ht

/-- With unique keys, two pairs of the list with the same key coincide. -/
theorem eq_of_mem_nodup_keys {α β : Type} [DecidableEq α] {m : List (α × β)}
    (hnd : (m.map Prod.fst).Nodup) {p q : α × β}
    (hp : p ∈ m) (hq : q ∈ m) (hk : p.1 = q.1) : p = q := by
  induction m with
  | nil => simp at hp
  | cons r rs ih =>
    have hnd' := List.nodup_cons.mp hnd
    rcases List.mem_cons.mp hp with hp1 | hp2 <;>
      rcases List.mem_cons.mp hq with hq1 | hq2
    · rw [hp1, hq1]
    · exact absurd (hk ▸ List.mem_map_of_mem Prod.fst hq2) (hp1 ▸ hnd'.1)
    · exact absurd (hk ▸ List.mem_map_of_mem Prod.fst hp2) (by rw [hq1] at hk ⊢; exact hk ▸ hnd'.1)
    · exact ih hnd'.2 hp2 hq2


/-- Applying a delete message of a linked element removes its node and
decrements the counter. -/
theorem applyDelete_of_linked (c : Cache) (id : Nat) (e : Element)
    (h : look c.elems id = some e) (hel : e.el = true) :
    c.applyDelete id = { c with l := c.l.erase id, len := c.len - 1 } := by
  unfold Cache.applyDelete
  rw [h]
  simp [hel]

/-- A delete message never touches the heap, the index, or the configuration. -/
theorem applyDelete_frame (c : Cache) (id : Nat) :
    (c.applyDelete id).elems = c.elems ∧ (c.applyDelete id).idx = c.idx
    ∧ (c.applyDelete id).cap = c.cap ∧ (c.applyDelete id).ttu = c.ttu
    ∧ (c.applyDelete id).coolOff = c.coolOff := by
  unfold Cache.applyDelete
  cases look c.elems id with
  | none => exact ⟨rfl, rfl, rfl, rfl, rfl⟩
  | some e => cases hel : e.el <;> simp [hel]

/-- `expired` only looks at the TTU. -/
theorem expired_congr (c c' : Cache) (e : Element) (now : Nat)
    (h : c'.ttu = c.ttu) : c'.expired e now = c.expired e now := by
  unfold Cache.expired
  rw [h]

/-- `expiredIdB` only looks at the heap and the TTU. -/
theorem expiredIdB_congr (c c' : Cache) (id : Nat) (now : Nat)
    (he : c'.elems = c.elems) (ht : c'.ttu = c.ttu) :
    expiredIdB c' id now = expiredIdB c id now := by
  unfold expiredIdB
  rw [he]
  cases look c.elems id with
  | none => rfl
  | some e => exact expired_congr c c' e now ht

/-- `elemOKB` only looks at the heap. -/
theorem elemOKB_congr (c c' : Cache) (p : GoKey × Nat)
    (he : c'.elems = c.elems) : elemOKB c' p = elemOKB c p := by
  unfold elemOKB
  rw [he]

/-- `Get` on an unencodable key. -/
theorem get_error (c : Cache) (k : GoKey) (now : Nat) (h : keyBytes k = none) :
    c.Get k now = (.error (), c) := by
  unfold Cache.Get
  rw [h]

/-- `Get` on an absent key. -/
theorem get_miss_absent (c : Cache) (k : GoKey) (now : Nat) (bs : List Nat)
    (hbs : keyBytes k = some bs) (hidx : look c.idx k = none) :
    c.Get k now = (.ok none, c) := by
  unfold Cache.Get Cache.shardGet
  simp only [hbs, hidx]

/-- `Get` on an index entry whose identity is not in the heap (unreachable in
drained runs; the `nil`-pointer guard of the source). -/
theorem get_miss_dangling (c : Cache) (k : GoKey) (now : Nat) (bs : List Nat)
    (id : Nat) (hbs : keyBytes k = some bs) (hidx : look c.idx k = some id)
    (helem : look c.elems id = none) :
    c.Get k now = (.ok none, c) := by
  unfold Cache.Get Cache.shardGet
  simp only [hbs, hidx, helem]

/-- `Get` on an expired entry. -/
theorem get_miss_expired (c : Cache) (k : GoKey) (now : Nat) (bs : List Nat)
    (id : Nat) (e : Element) (hbs : keyBytes k = some bs)
    (hidx : look c.idx k = some id) (helem : look c.elems id = some e)
    (hexp : c.expired e now = true) :
    c.Get k now = (.ok none, c) := by
  unfold Cache.Get Cache.shardGet
  simp only [hbs, hidx, helem, hexp]
  simp

/-- `Get` on a live entry: the value is returned, and a promotion is sent
unless the cool-off window suppresses it. -/
theorem get_hit (c : Cache) (k : GoKey) (now : Nat) (bs : List Nat)
    (id : Nat) (e : Element) (hbs : keyBytes k = some bs)
    (hidx : look c.idx k = some id) (helem : look c.elems id = some e)
    (hexp : c.expired e now = false) :
    c.Get k now = if c.coolOff = 0 ∨ now - e.lu > c.coolOff
      then (.ok (some e.val), c.applyFront id) else (.ok (some e.val), c) := by
  unfold Cache.Get Cache.shardGet
  simp only [hbs, hidx, helem, hexp]
  simp

/-- Claim C4: `Get` misses exactly when the key is absent or its entry is
expired; with a non-zero TTU an entry is expired iff `lastUse + ttu < now`;
with TTU zero no entry is ever treated as expired, so `Get` of a present key
returns its value. -/
theorem c4_get_found_iff (c : Cache) (k : GoKey) (now : Nat)
    (henc : (keyBytes k).isSome = true) :
    ((c.Get k now).1 = .ok none ↔
      (c.lookupEntry k = none ∨
       ∃ e, c.lookupEntry k = some e ∧ c.expired e now = true))
    ∧ (c.ttu ≠ 0 → ∀ e : Element, (c.expired e now = true ↔ e.lu + c.ttu < now))
    ∧ (c.ttu = 0 → ∀ e, c.lookupEntry k = some e →
        (c.Get k now).1 = .ok (some e.val)) := by
  obtain ⟨bs, hbs⟩ := Option.isSome_iff_exists.mp henc
  refine ⟨?_, ?_, ?_⟩
  · cases hidx : look c.idx k with
    | none =>
      rw [get_miss_absent c k now bs hbs hidx]
      simp [Cache.lookupEntry, hidx]
    | some id =>
      cases helem : look c.elems id with
      | none =>
        rw [get_miss_dangling c k now bs id hbs hidx helem]
        simp [Cache.lookupEntry, hidx, helem]
      | some e =>
        cases hexp : c.expired e now with
        | true =>
          rw [get_miss_expired c k now bs id e hbs hidx helem hexp]
          simp [Cache.lookupEntry, hidx, helem, hexp]
        | false =>
          have hfst : (c.Get k now).1 = .ok (some e.val) := by
            rw [get_hit c k now bs id e hbs hidx helem hexp]
            split <;> rfl
          rw [hfst]
          simp [Cache.lookupEntry, hidx, helem, hexp]
  · intro h e
    unfold Cache.expired
    simp [h]
  · intro h e hlook
    unfold Cache.lookupEntry at hlook
    cases hidx : look c.idx k with
    | none => rw [hidx] at hlook; cases hlook
    | some id =>
      rw [hidx] at hlook
      have hlook2 : look c.elems id = some e := hlook
      have hexp : c.expired e now = false := by
        unfold Cache.expired
        simp [h]
      rw [get_hit c k now bs id e hbs hidx hlook2 hexp]
      split <;> rfl

/-- Claim C4 witness at the TTU scenario state, time 7 (entry expired). -/
theorem c4_witness :
    (keyBytes (GoKey.str "k")).isSome = true
    ∧ (((ttuBase.Get (GoKey.str "k") 7).1 = .ok none ↔
         (ttuBase.lookupEntry (GoKey.str "k") = none ∨
          ∃ e, ttuBase.lookupEntry (GoKey.str "k") = some e
               ∧ ttuBase.expired e 7 = true))
       ∧ (ttuBase.ttu ≠ 0 → ∀ e : Element,
            (ttuBase.expired e 7 = true ↔ e.lu + ttuBase.ttu < 7))
       ∧ (ttuBase.ttu = 0 → ∀ e, ttuBase.lookupEntry (GoKey.str "k") = some e →
            (ttuBase.Get (GoKey.str "k") 7).1 = .ok (some e.val))) :=
  ⟨by decide, c4_get_found_iff ttuBase (GoKey.str "k") 7 (by decide)⟩

/-- Claim C9: an unencodable key makes `Add`, `Get` and `Remove` abort before
a shard is computed and with the whole cache state unchanged. -/
theorem c9_unencodable_aborts (c : Cache) (k : GoKey) (v : GoVal) (now : Nat)
    (h : keyBytes k = none) :
    shardFor k = none
    ∧ c.Add k v now = (.error (), c)
    ∧ c.Get k now = (.error (), c)
    ∧ c.Remove k = (.error (), c) := by
  refine ⟨?_, ?_, get_error c k now h, ?_⟩
  · unfold shardFor
    rw [h]
    rfl
  · unfold Cache.Add
    rw [h]
  · unfold Cache.Remove
    rw [h]

/-- Claim C9 witness: a key of an unsupported type, against the TTU scenario
state. -/
theorem c9_witness :
    keyBytes (GoKey.unencodable 0) = none
    ∧ (shardFor (GoKey.unencodable 0) = none
       ∧ ttuBase.Add (GoKey.unencodable 0) (GoVal.int 1) 3 = (.error (), ttuBase)
       ∧ ttuBase.Get (GoKey.unencodable 0) 3 = (.error (), ttuBase)
       ∧ ttuBase.Remove (GoKey.unencodable 0) = (.error (), ttuBase)) :=
  ⟨rfl, c9_unencodable_aborts ttuBase (GoKey.unencodable 0) (GoVal.int 1) 3 rfl⟩

/-- Claim C10: a `Get` that finds an expired entry reports a miss and leaves
the whole cache state — in particular the shard index, where the expired
entry remains stored — unchanged; moreover no `Get` ever changes any shard
index. -/
theorem c10_expired_get_frame (c : Cache) (k : GoKey) (id : Nat) (e : Element)
    (now : Nat)
    (henc : (keyBytes k).isSome = true)
    (hidx : look c.idx k = some id)
    (helem : look c.elems id = some e)
    (hexp : c.expired e now = true) :
    c.Get k now = (.ok none, c)
    ∧ ∀ (c' : Cache) (k' : GoKey) (now' : Nat),
        ((c'.Get k' now').2).idx = c'.idx := by
  obtain ⟨bs, hbs⟩ := Option.isSome_iff_exists.mp henc
  refine ⟨get_miss_expired c k now bs id e hbs hidx helem hexp, ?_⟩
  intro c' k' now'
  cases hkb : keyBytes k' with
  | none => rw [get_error c' k' now' hkb]
  | some bs' =>
    cases hidx' : look c'.idx k' with
    | none => rw [get_miss_absent c' k' now' bs' hkb hidx']
    | some id' =>
      cases helem' : look c'.elems id' with
      | none => rw [get_miss_dangling c' k' now' bs' id' hkb hidx' helem']
      | some e' =>
        cases hexp' : c'.expired e' now' with
        | true => rw [get_miss_expired c' k' now' bs' id' e' hkb hidx' helem' hexp']
        | false =>
          rw [get_hit c' k' now' bs' id' e' hkb hidx' helem' hexp']
          split
          · exact applyFront_idx c' id'
          · rfl

/-- Claim C10 witness: the TTU scenario state at time 7, where the single
entry is expired. -/
theorem c10_witness :
    ((keyBytes (GoKey.str "k")).isSome = true
     ∧ look ttuBase.idx (GoKey.str "k") = some 0
     ∧ look ttuBase.elems 0 = some ⟨GoKey.str "k", GoVal.int 7, 0, true⟩
     ∧ ttuBase.expired ⟨GoKey.str "k", GoVal.int 7, 0, true⟩ 7 = true)
    ∧ (ttuBase.Get (GoKey.str "k") 7 = (.ok none, ttuBase)
       ∧ ∀ (c' : Cache) (k' : GoKey) (now' : Nat),
           ((c'.Get k' now').2).idx = c'.idx) :=
  ⟨⟨by decide, by decide, by decide, by decide⟩,
   c10_expired_get_frame ttuBase (GoKey.str "k") 0
     ⟨GoKey.str "k", GoVal.int 7, 0, true⟩ 7 (by decide) (by decide) (by decide)
     (by decide)⟩

/-- Claim C8: the key router is a deterministic pure function of the key: an
encodable key resolves to exactly one shard index, that index is within the
shard range, and the index depends only on the key's byte representation. -/
theorem c8_shard_deterministic (k : GoKey) (henc : (keyBytes k).isSome = true) :
    (∃ i, shardFor k = some i ∧ i < numShards ∧
      ∀ j, shardFor k = some j → j = i)
    ∧ ∀ k2 : GoKey, keyBytes k2 = keyBytes k → shardFor k2 = shardFor k := by
  obtain ⟨bs, hbs⟩ := Option.isSome_iff_exists.mp henc
  constructor
  · refine ⟨fnv32a bs &&& (numShards - 1), ?_, ?_, ?_⟩
    · unfold shardFor
      rw [hbs]
      rfl
    · have h1 : fnv32a bs &&& (numShards - 1) ≤ numShards - 1 :=
        Nat.and_le_right
      have h2 : numShards - 1 < numShards := by decide
      exact lt_of_le_of_lt h1 h2
    · intro j hj
      unfold shardFor at hj
      rw [hbs] at hj
      simpa using hj.symm
  · intro k2 h2
    unfold shardFor
    rw [h2]

/-- Claim C8 witness at the key `"a"`. -/
theorem c8_witness :
    (keyBytes (GoKey.str "a")).isSome = true
    ∧ ((∃ i, shardFor (GoKey.str "a") = some i ∧ i < numShards ∧
          ∀ j, shardFor (GoKey.str "a") = some j → j = i)
       ∧ ∀ k2 : GoKey, keyBytes k2 = keyBytes (GoKey.str "a") →
           shardFor k2 = shardFor (GoKey.str "a")) :=
  ⟨by decide, c8_shard_deterministic (GoKey.str "a") (by decide)⟩

/-- Claim C6 as amended: on a hit with a non-zero cool-off, an elapsed time of
at most the cool-off sends no promotion and leaves the state unchanged, while
an elapsed time strictly greater than the cool-off sends a promotion — and in
both cases the entry's last-use time is left unmodified (the read path of
this variant never refreshes `lastUse`). -/
theorem c6_cooloff_amended (c : Cache) (k : GoKey) (id : Nat) (e : Element)
    (now : Nat)
    (henc : (keyBytes k).isSome = true)
    (hcool : c.coolOff ≠ 0)
    (hidx : look c.idx k = some id)
    (helem : look c.elems id = some e)
    (hexp : c.expired e now = false) :
    (now - e.lu ≤ c.coolOff → c.Get k now = (.ok (some e.val), c))
    ∧ (c.coolOff < now - e.lu →
        c.Get k now = (.ok (some e.val), c.applyFront id)
        ∧ (look (c.applyFront id).elems id).map Element.lu = some e.lu) := by
  obtain ⟨bs, hbs⟩ := Option.isSome_iff_exists.mp henc
  have hred := get_hit c k now bs id e hbs hidx helem hexp
  constructor
  · intro hle
    rw [hred, if_neg]
    rintro (h0 | hgt)
    · exact hcool h0
    · exact absurd hle (not_le.mpr hgt)
  · intro hgt
    refine ⟨by rw [hred, if_pos (Or.inr hgt)], ?_⟩
    unfold Cache.applyFront
    rw [helem]
    simp [look_upd]

/-- Claim C6 witness: cool-off 10, entry last used at 0; the suppressed case
at time 8 (elapsed 8 ≤ 10) and the promoting case at time 11 (elapsed 11 > 10). -/
theorem c6_witness :
    ((keyBytes (GoKey.str "a")).isSome = true
     ∧ coolBase.coolOff ≠ 0
     ∧ look coolBase.idx (GoKey.str "a") = some 0
     ∧ look coolBase.elems 0 = some ⟨GoKey.str "a", GoVal.int 1, 0, true⟩
     ∧ coolBase.expired ⟨GoKey.str "a", GoVal.int 1, 0, true⟩ 11 = false)
    ∧ ((11 - (0 : Nat) ≤ coolBase.coolOff →
          coolBase.Get (GoKey.str "a") 11 = (.ok (some (GoVal.int 1)), coolBase))
       ∧ (coolBase.coolOff < 11 - (0 : Nat) →
          coolBase.Get (GoKey.str "a") 11
            = (.ok (some (GoVal.int 1)), coolBase.applyFront 0)
          ∧ (look (coolBase.applyFront 0).elems 0).map Element.lu = some 0)) :=
  ⟨⟨by decide, by decide, by decide, by decide, by decide⟩,
   c6_cooloff_amended coolBase (GoKey.str "a") 0
     ⟨GoKey.str "a", GoVal.int 1, 0, true⟩ 11 (by decide) (by decide) (by decide)
     (by decide) (by decide)⟩

/-- The purge loop, characterized on coherent states: it removes exactly a
maximal expired tail of the ordering list — every removed entry is expired,
the scan stops at the first non-expired entry from the back — returns the
number removed, decrements the counter accordingly, deletes exactly the
removed entries' keys from the index, and leaves the heap untouched. -/
theorem purgeLoop_spec (now : Nat) :
    ∀ (fuel : Nat) (c : Cache), PurgeInv c → c.l.length ≤ fuel →
    ∃ keep drop,
      c.l = keep ++ drop ∧
      (∀ id ∈ drop, expiredIdB c id now = true) ∧
      (∀ id, keep.getLast? = some id → expiredIdB c id now = false) ∧
      (Cache.purgeLoop now fuel c).1 = drop.length ∧
      ((Cache.purgeLoop now fuel c).2).l = keep ∧
      ((Cache.purgeLoop now fuel c).2).len = c.len - drop.length ∧
      ((Cache.purgeLoop now fuel c).2).elems = c.elems ∧
      (∀ k id, look c.idx k = some id →
        look ((Cache.purgeLoop now fuel c).2).idx k
          = if id ∈ drop then none else some id) ∧
      (∀ k, look c.idx k = none →
        look ((Cache.purgeLoop now fuel c).2).idx k = none) := by
  intro fuel
  induction fuel with
  | zero =>
    intro c hInv hlen
    have hnil : c.l = [] := List.eq_nil_of_length_eq_zero (Nat.le_zero.mp hlen)
    have hred : Cache.purgeLoop now 0 c = (0, c) := rfl
    refine ⟨[], [], by simp [hnil], by simp, by simp, ?_, ?_, ?_, ?_, ?_, ?_⟩
    · rw [hred]; simp
    · rw [hred]; exact hnil
    · rw [hred]; simp
    · rw [hred]
    · intro k id h
      rw [hred]
      simpa using h
    · intro k h
      rw [hred]
      exact h
  | succ fuel ih =>
    intro c hInv hlen
    rcases List.eq_nil_or_concat c.l with hnil | ⟨l', id, hconc⟩
    · have hgl : c.l.getLast? = none := by rw [hnil]; rfl
      have hred : Cache.purgeLoop now (fuel + 1) c = (0, c) := by
        unfold Cache.purgeLoop
        simp only [hgl]
      refine ⟨[], [], by simp [hnil], by simp, by simp, ?_, ?_, ?_, ?_, ?_, ?_⟩
      · rw [hred]; simp
      · rw [hred]; exact hnil
      · rw [hred]; simp
      · rw [hred]
      · intro k id h
        rw [hred]
        simpa using h
      · intro k h
        rw [hred]
        exact h
    · have hcl : c.l = l' ++ [id] := by rw [hconc]; simp [List.concat_eq_append]
      have hgl : c.l.getLast? = some id := by
        rw [hcl]; exact List.getLast?_concat _
      obtain ⟨hnd, hknd, hl2i, hi2l, hok⟩ := hInv
      have hmeml : id ∈ c.l := by rw [hcl]; simp
      obtain ⟨p, hpmem, hp2⟩ := List.mem_map.mp (hl2i id hmeml)
      obtain ⟨k0, id0⟩ := p
      dsimp at hp2
      subst hp2
      have hokp := hok (k0, id0) hpmem
      unfold elemOKB at hokp
      cases helem : look c.elems id0 with
      | none => rw [helem] at hokp; cases hokp
      | some e =>
        rw [helem] at hokp
        simp only [Bool.and_eq_true, decide_eq_true_eq] at hokp
        obtain ⟨hekey, hel⟩ := hokp
        have hlookidx : look c.idx k0 = some id0 :=
          look_eq_some_of_mem_nodup hknd hpmem
        cases hexp : c.expired e now with
        | false =>
          have hred : Cache.purgeLoop now (fuel + 1) c = (0, c) := by
            unfold Cache.purgeLoop
            simp only [hgl, helem, hexp, Bool.false_eq_true, if_false]
          refine ⟨c.l, [], by simp, by simp, ?_, ?_, ?_, ?_, ?_, ?_, ?_⟩
          · intro id1 h1
            rw [hgl] at h1
            cases h1
            unfold expiredIdB
            rw [helem]
            exact hexp
          · rw [hred]; simp
          · rw [hred]
          · rw [hred]; simp
          · rw [hred]
          · intro k1 id1 h1
            rw [hred]
            simpa using h1
          · intro k1 h1
            rw [hred]
            exact h1
        | true =>
          have hidnotin : id0 ∉ l' := by
            rw [hcl] at hnd
            intro hmem
            exact (List.nodup_append.mp hnd).2.2 hmem (by simp)
          have herase : c.l.erase id0 = l' := by
            rw [hcl, List.erase_append_right _ hidnotin,
              List.erase_cons_head, List.append_nil]
          set c2 : Cache :=
            { c with idx := del c.idx k0, l := l', len := c.len - 1 } with hc2
          have hAD : ({ c with idx := del c.idx k0 } : Cache).applyDelete id0
              = c2 := by
            rw [applyDelete_of_linked ({ c with idx := del c.idx k0 } : Cache)
              id0 e helem hel]
            rw [hc2]
            simp [herase]
          have hred : Cache.purgeLoop now (fuel + 1) c
              = ((Cache.purgeLoop now fuel c2).1 + 1,
                 (Cache.purgeLoop now fuel c2).2) := by
            conv_lhs => unfold Cache.purgeLoop
            simp only [hgl, helem, hexp, eq_self_iff_true, if_true,
              Cache.shardRemove, hekey, hlookidx]
            rw [hAD]
          have hInv2 : PurgeInv c2 := by
            refine ⟨?_, ?_, ?_, ?_, ?_⟩
            · rw [hcl] at hnd
              exact (List.nodup_append.mp hnd).1
            · have hsub : List.Sublist (keysOf (del c.idx k0)) (keysOf c.idx) :=
                (List.filter_sublist _).map Prod.fst
              exact List.Nodup.sublist hsub hknd
            · intro id1 hid1
              have hid1l : id1 ∈ c.l := by
                rw [hcl]; exact List.mem_append_left _ hid1
              obtain ⟨q, hqmem, hq2⟩ := List.mem_map.mp (hl2i id1 hid1l)
              have hqk : q.1 ≠ k0 := by
                intro hq1
                have hqeq : q = (k0, id0) :=
                  eq_of_mem_nodup_keys hknd hqmem hpmem (by rw [hq1])
                rw [hqeq] at hq2
                have hq2' : id0 = id1 := hq2
                exact hidnotin (hq2'.symm ▸ hid1)
              have hqdel : q ∈ del c.idx k0 :=
                List.mem_filter.mpr ⟨hqmem, by simpa using hqk⟩
              exact List.mem_map.mpr ⟨q, hqdel, hq2⟩
            · intro id1 hid1
              obtain ⟨q, hqdel, hq2⟩ := List.mem_map.mp hid1
              have hqmem : q ∈ c.idx := List.mem_of_mem_filter hqdel
              have hq1ne : q.1 ≠ k0 := by
                have := (List.mem_filter.mp hqdel).2
                simpa using this
              have hq1l : id1 ∈ c.l :=
                hi2l id1 (List.mem_map.mpr ⟨q, hqmem, hq2⟩)
              rw [hcl] at hq1l
              rcases List.mem_append.mp hq1l with h | h
              · exact h
              · exfalso
                have hid1id : id1 = id0 := by simpa using h
                have hokq := hok q hqmem
                unfold elemOKB at hokq
                rw [hq2, hid1id, helem] at hokq
                simp only [Bool.and_eq_true, decide_eq_true_eq] at hokq
                exact hq1ne ((hokq.1.symm).trans hekey)
            · intro q hqdel
              have hqmem : q ∈ c.idx := List.mem_of_mem_filter hqdel
              have := hok q hqmem
              rwa [elemOKB_congr c c2 q rfl]
          have hlen2 : c2.l.length ≤ fuel := by
            have hll : c.l.length = l'.length + 1 := by rw [hcl]; simp
            have hc2l : c2.l.length = l'.length := rfl
            omega
          obtain ⟨keep, drop2, hsplit, hdropexp, hkeepstop, hcount, hkl,
            hklen, hkelems, hkidx, hknone⟩ := ih c2 hInv2 hlen2
          have hsplit' : l' = keep ++ drop2 := hsplit
          refine ⟨keep, drop2 ++ [id0], ?_, ?_, ?_, ?_, ?_, ?_, ?_, ?_, ?_⟩
          · rw [hcl, hsplit', List.append_assoc]
          · intro id1 h1
            rcases List.mem_append.mp h1 with h | h
            · have := hdropexp id1 h
              rwa [expiredIdB_congr c c2 id1 now rfl rfl] at this
            · have hid1 : id1 = id0 := by simpa using h
              subst hid1
              unfold expiredIdB
              rw [helem]
              exact hexp
          · intro id1 h1
            have := hkeepstop id1 h1
            rwa [expiredIdB_congr c c2 id1 now rfl rfl] at this
          · rw [hred]
            simp [hcount]
          · rw [hred]
            exact hkl
          · rw [hred, hklen]
            have hc2len : c2.len = c.len - 1 := rfl
            rw [hc2len]
            simp only [List.length_append, List.length_singleton]
            push_cast
            ring
          · rw [hred]
            exact hkelems
          · intro k1 id1 h1
            rw [hred]
            by_cases hk1 : k1 = k0
            · subst hk1
              rw [hlookidx] at h1
              cases h1
              have h2 : look c2.idx k1 = none := by
                show look (del c.idx k1) k1 = none
                rw [look_del]
                simp
              rw [if_pos (List.mem_append.mpr (Or.inr (by simp)))]
              exact hknone k1 h2
            · have h2 : look c2.idx k1 = some id1 := by
                show look (del c.idx k0) k1 = some id1
                rw [look_del, if_neg hk1]
                exact h1
              have h3 := hkidx k1 id1 h2
              have hid1ne : id1 ≠ id0 := by
                intro heq
                subst heq
                have hq := look_mem h1
                have hokq := hok (k1, id1) hq
                unfold elemOKB at hokq
                rw [helem] at hokq
                simp only [Bool.and_eq_true, decide_eq_true_eq] at hokq
                exact hk1 ((hokq.1.symm).trans hekey)
              rw [h3]
              by_cases hmem : id1 ∈ drop2
              · simp [hmem]
              · have hnot : id1 ∉ drop2 ++ [id0] := by simp [hmem, hid1ne]
                simp [hmem, hnot]
          · intro k1 h1
            rw [hred]
            apply hknone
            show look (del c.idx k0) k1 = none
            rw [look_del]
            by_cases hk1 : k1 = k0
            · simp [hk1]
            · rw [if_neg hk1]
              exact h1

/-- Claim C7: on a coherent state, `Purge` scans from the back of the ordering
structure, removes each expired entry it meets from its shard and from the
ordering structure, stops at the first non-expired entry, and returns the
number removed (decrementing the live counter by the same amount and leaving
the heap untouched). -/
theorem c7_purge_characterization (c : Cache) (now : Nat) (h : PurgeInv c) :
    ∃ keep drop,
      c.l = keep ++ drop ∧
      (∀ id ∈ drop, expiredIdB c id now = true) ∧
      (∀ id, keep.getLast? = some id → expiredIdB c id now = false) ∧
      (c.Purge now).1 = drop.length ∧
      ((c.Purge now).2).l = keep ∧
      ((c.Purge now).2).len = c.len - drop.length ∧
      ((c.Purge now).2).elems = c.elems ∧
      (∀ k id, look c.idx k = some id →
        look ((c.Purge now).2).idx k = if id ∈ drop then none else some id) ∧
      (∀ k, look c.idx k = none → look ((c.Purge now).2).idx k = none) := by
  unfold Cache.Purge
  by_cases h0 : c.l.length = 0
  · have hnil : c.l = [] := List.eq_nil_of_length_eq_zero h0
    rw [if_pos h0]
    refine ⟨[], [], by simp [hnil], by simp, by simp, by simp, hnil, by simp,
      rfl, ?_, ?_⟩
    · intro k id h1
      simpa using h1
    · intro k h1
      exact h1
  · rw [if_neg h0]
    by_cases ht : c.ttu ≠ 0
    · rw [if_pos ht]
      exact purgeLoop_spec now c.l.length c h (le_refl _)
    · rw [if_neg ht]
      push_neg at ht
      refine ⟨c.l, [], by simp, by simp, ?_, by simp, rfl, by simp, rfl,
        ?_, ?_⟩
      · intro id hid
        unfold expiredIdB
        cases look c.elems id with
        | none => rfl
        | some e =>
          unfold Cache.expired
          simp [ht]
      · intro k id h1
        simpa using h1
      · intro k h1
        exact h1

/-- Claim C7 witness: TTU 5, `Add("k",7)` at time 0, purged at time 6; the
characterization applies, and concretely the purge removes one entry, after
which `Len() == 0` and `Get("k")` misses. -/
theorem c7_witness :
    PurgeInv ttuBase
    ∧ (∃ keep drop,
        ttuBase.l = keep ++ drop ∧
        (∀ id ∈ drop, expiredIdB ttuBase id 6 = true) ∧
        (∀ id, keep.getLast? = some id → expiredIdB ttuBase id 6 = false) ∧
        (ttuBase.Purge 6).1 = drop.length ∧
        ((ttuBase.Purge 6).2).l = keep ∧
        ((ttuBase.Purge 6).2).len = ttuBase.len - drop.length ∧
        ((ttuBase.Purge 6).2).elems = ttuBase.elems ∧
        (∀ k id, look ttuBase.idx k = some id →
          look ((ttuBase.Purge 6).2).idx k
            = if id ∈ drop then none else some id) ∧
        (∀ k, look ttuBase.idx k = none →
          look ((ttuBase.Purge 6).2).idx k = none))
    ∧ ((ttuBase.Purge 6).1 = 1
       ∧ ((ttuBase.Purge 6).2).Len = 0
       ∧ (((ttuBase.Purge 6).2).Get (GoKey.str "k") 6).1 = .ok none) :=
  ⟨by decide, c7_purge_characterization ttuBase 6 (by decide), by decide⟩
